import Mathlib

/-!
Shallow embedding of the sponsorship-outreach repository
(`outreach_app`): the contact-extraction pipeline
(`contacts/finder.py`, `contacts/ranker.py`), the personalization-brief
builder (`writer/brief.py`) and the send-worker state machine
(`queue/worker.py`), together with theorems settling the frozen claims.

Modelling conventions:
* Python strings are `List Char` (`Str`); all inputs in scope are code
  points, and Python's `str.lower` agrees with `Char.toLower` on them.
* Confidence scores are natural numbers counting tenths.  The source
  uses float literals 0.2 / 0.6 / 0.8 / 1.0 and only ever adds them,
  takes `min` with 1.0 and compares them; on these values IEEE-754
  double arithmetic is exact (0.6+0.2 = 0.8 and 0.6+0.2+0.2 = 1.0 hold
  bit-for-bit), so integer tenths are an exact rescaling.
* External capabilities (SMTP delivery, the LLM call) are oracles
  passed in as explicit arguments, and the relational store is a record
  of entity lists.
-/

/-- Python strings are modelled as lists of code points. -/
abbrev Str := List Char

/-- Python `str.lower()` (all inputs in scope are ASCII, where
`Char.toLower` coincides with Python's lowercasing). -/
def pyLower (s : Str) : Str := s.map Char.toLower

/-- Python's substring operator `needle in hay`. -/
def pyIn (needle : Str) : Str → Bool
  | [] => needle.isEmpty
  | c :: cs => needle.isPrefixOf (c :: cs) || pyIn needle cs

/-- Strip all leading characters satisfying `p` and then all trailing
characters satisfying `p`; this is Python's `str.strip` with the
character class `p`. -/
def pyStrip (p : Char → Bool) (l : Str) : Str :=
  ((l.dropWhile p).reverse.dropWhile p).reverse

/-- Python whitespace, for the no-argument `str.strip()`. -/
def isPySpace (c : Char) : Bool :=
  c == ' ' || c == '\t' || c == '\n' || c == '\r' || c == '\x0b' || c == '\x0c'

/-- The punctuation/bracket cleanup class of
`finder.extract_emails`: the characters of `.,;:()[]{}<>"'`. -/
def isCleanupChar (c : Char) : Bool :=
  (".,;:()[]\x7b\x7d<>\"'".toList).contains c

/-- Character class of the regex local part `[a-zA-Z0-9._%+-]`. -/
def isLocalChar (c : Char) : Bool :=
  c.isAlpha || c.isDigit || c == '.' || c == '_' || c == '%' || c == '+' || c == '-'

/-- Character class of the regex domain part `[a-zA-Z0-9.-]`. -/
def isDomChar (c : Char) : Bool :=
  c.isAlpha || c.isDigit || c == '.' || c == '-'

/-- Character class of the regex TLD part `[a-zA-Z]`. -/
def isTldChar (c : Char) : Bool := c.isAlpha

/-- Match the domain tail `[a-zA-Z0-9.-]+\.[a-zA-Z]{2,}` of `EMAIL_RE`
at the start of `cs`, with Python's greedy/backtracking semantics: the
engine consumes the maximal run of domain characters, then backtracks
to the largest split point `q ≥ 1` whose character is `'.'` followed by
at least two letters, and the TLD is the maximal letter run there.
Returns the matched part and the unconsumed remainder. -/
def matchDomain (cs : Str) : Option (Str × Str) :=
  let run := cs.takeWhile isDomChar
  let rest := cs.drop run.length
  let ok := fun q => decide (1 ≤ q) && (run.getD q ' ' == '.') &&
    decide (2 ≤ ((run.drop (q+1)).takeWhile isTldChar).length)
  match ((List.range run.length).filter ok).getLast? with
  | none => none
  | some q =>
      let tld := (run.drop (q+1)).takeWhile isTldChar
      some (run.take q ++ '.' :: tld, (run.drop (q+1+tld.length)) ++ rest)

/-- Try to match `EMAIL_RE` at the start of `cs`: the local part is the
maximal run of local characters (shrinking it cannot help, because the
following character would still be a local character, never `'@'`),
then a literal `'@'`, then the domain tail. -/
def tryMatch (cs : Str) : Option (Str × Str) :=
  let loc := cs.takeWhile isLocalChar
  if loc.isEmpty then none
  else
    match cs.drop loc.length with
    | '@' :: rest2 =>
        match matchDomain rest2 with
        | some (dom, rest) => some (loc ++ '@' :: dom, rest)
        | none => none
    | _ => none

/-- `re.finditer(EMAIL_RE, text)`: scan left to right, emit each
leftmost match and resume after it; on failure advance one character.
`fuel` bounds the number of scan steps; every step consumes at least
one character, so `text.length` fuel is always enough. -/
def scanEmails : Nat → Str → List Str
  | 0, _ => []
  | _, [] => []
  | fuel + 1, c :: cs =>
      match tryMatch (c :: cs) with
      | some (m, rest) => m :: scanEmails fuel rest
      | none => scanEmails fuel cs

/-- Strict lexicographic order on strings by code point, the order
Python's `sorted` uses on `str`. -/
def ltStr : Str → Str → Bool
  | [], [] => false
  | [], _ :: _ => true
  | _ :: _, [] => false
  | a :: as, b :: bs => if a < b then true else if b < a then false else ltStr as bs

/-- Insert into a strictly `ltStr`-sorted list, dropping duplicates. -/
def sortedInsert (x : Str) : List Str → List Str
  | [] => [x]
  | y :: ys =>
      if ltStr x y then x :: y :: ys
      else if ltStr y x then y :: sortedInsert x ys
      else y :: ys

/-- Python's `sorted(set(l))` for strings: the strictly sorted list of
the distinct elements of `l` (independent of the order of `l`, so the
unspecified iteration order of a Python `set` is immaterial). -/
def sortedDedup (l : List Str) : List Str := l.foldr sortedInsert []

/-- `finder.extract_emails`: regex-scan the text, de-duplicate the raw
matches (`set(...)`), strip whitespace and then the punctuation cleanup
class from each, and return `sorted(set(cleaned))`. -/
def extract_emails (text : Str) : List Str :=
  sortedDedup (((scanEmails text.length text).dedup).map
    (fun e => pyStrip isCleanupChar (pyStrip isPySpace e)))

/-- Keyword stems of the `csr` role in `finder.ROLE_KEYWORDS`. -/
def CSR_KEYWORDS : List Str :=
  ["csr".toList, "sustainab".toList, "esg".toList, "community".toList,
   "impact".toList, "foundation".toList, "responsibility".toList]

/-- Keyword stems of the `partnership` role in `finder.ROLE_KEYWORDS`. -/
def PARTNERSHIP_KEYWORDS : List Str :=
  ["partner".toList, "partnership".toList, "alliances".toList,
   "collab".toList, "sponsor".toList, "sponsorship".toList]

/-- Keyword stems of the `marketing` role in `finder.ROLE_KEYWORDS`. -/
def MARKETING_KEYWORDS : List Str :=
  ["marketing".toList, "brand".toList, "communications".toList,
   "comms".toList, "pr".toList, "media".toList]

/-- `finder.ROLE_KEYWORDS` as an insertion-ordered association list
(Python dicts iterate in insertion order, which encodes the role
priority csr, partnership, marketing). -/
def ROLE_KEYWORDS : List (Str × List Str) :=
  [("csr".toList, CSR_KEYWORDS),
   ("partnership".toList, PARTNERSHIP_KEYWORDS),
   ("marketing".toList, MARKETING_KEYWORDS)]

/-- `finder.GENERIC_INBOX_HINTS`. -/
def GENERIC_INBOX_HINTS : List Str :=
  ["info@".toList, "contact@".toList, "hello@".toList,
   "support@".toList, "enquiry@".toList, "inquiry@".toList]

/-- The sponsorship-vocabulary list written inline in
`finder.guess_role` for the page-text confidence boost. -/
def SPONSOR_TERMS : List Str :=
  ["sponsor".toList, "sponsorship".toList, "partnership".toList,
   "collaborat".toList, "csr".toList, "esg".toList, "foundation".toList]

/-- `finder.guess_role`: lower-case the email, URL and page text; the
first role (in `ROLE_KEYWORDS` order) with a keyword stem occurring in
the email or the URL wins and adds 0.6; a generic-inbox hint in the
email adds 0.2 (and assigns role `generic` if none was set); a
sponsorship-vocabulary term in the page text adds 0.2; the score is
clamped at 1.0.  Confidences are in tenths (see the module comment). -/
def guess_role (email context_url page_text : Str) : Str × Nat :=
  let e := pyLower email
  let url := pyLower context_url
  let text := pyLower page_text
  let roleScore :=
    match ROLE_KEYWORDS.find? (fun p =>
        p.2.any (fun k => pyIn k e) || p.2.any (fun k => pyIn k url)) with
    | some p => (p.1, 6)
    | none => ("unknown".toList, 0)
  let roleScore2 :=
    if GENERIC_INBOX_HINTS.any (fun h => pyIn h e) then
      ((if roleScore.1 == "unknown".toList then "generic".toList else roleScore.1),
       roleScore.2 + 2)
    else roleScore
  let score3 :=
    if SPONSOR_TERMS.any (fun k => pyIn k text) then roleScore2.2 + 2 else roleScore2.2
  (roleScore2.1, min 10 score3)

/-- `finder.FoundEmail` (confidence in tenths). -/
structure FoundEmail where
  email : Str
  found_on : Str
  role_guess : Str
  confidence : Nat
deriving DecidableEq

/-- The body of the duplicate-handling branch in
`find_contacts_from_pages`: `found[e] = fe` when `e` is absent or the
new confidence is strictly greater (Python dict assignment appends a
new key at the end and updates an existing key in place). -/
def found_update (found : List (Str × FoundEmail)) (e : Str) (fe : FoundEmail) :
    List (Str × FoundEmail) :=
  match found.find? (fun p => p.1 == e) with
  | none => found ++ [(e, fe)]
  | some old =>
      if old.2.confidence < fe.confidence then
        found.map (fun p => if p.1 == e then (e, fe) else p)
      else found

/-- One page of the aggregation loop in `find_contacts_from_pages`:
extract the page's emails and fold each through `found_update`. -/
def process_page (found : List (Str × FoundEmail)) (page : Str × Str) :
    List (Str × FoundEmail) :=
  (extract_emails page.2).foldl
    (fun fd e =>
      let rc := guess_role e page.1 page.2
      found_update fd e ⟨e, page.1, rc.1, rc.2⟩) found

/-- `role_weight` from the ranking step of `find_contacts_from_pages`. -/
def role_weight : List (Str × Nat) :=
  [("csr".toList, 3), ("partnership".toList, 3), ("marketing".toList, 2),
   ("generic".toList, 1), ("unknown".toList, 0)]

/-- `role_weight.get(x.role_guess, 0)`. -/
def roleWeightOf (r : Str) : Nat :=
  ((role_weight.find? (fun p => p.1 == r)).map (fun p => p.2)).getD 0

/-- The descending sort order of `find_contacts_from_pages`:
`a` may come before `b` when the key `(confidence, role weight)` of `a`
is lexicographically at least that of `b`. -/
def rankLe (a b : FoundEmail) : Bool :=
  (b.confidence < a.confidence) ||
    (b.confidence == a.confidence && roleWeightOf b.role_guess ≤ roleWeightOf a.role_guess)

/-- Stable insertion of `x` into an already sorted list: `x` goes in
front of the first element it may precede. -/
def insertIn (le : FoundEmail → FoundEmail → Bool) (x : FoundEmail) :
    List FoundEmail → List FoundEmail
  | [] => [x]
  | y :: ys => if le x y then x :: y :: ys else y :: insertIn le x ys

/-- Stable insertion sort; Python's `sorted` is a stable sort, and a
stable sort's output is uniquely determined by the (total) comparison,
so this models `sorted(..., key=..., reverse=True)` exactly. -/
def insertionSort (le : FoundEmail → FoundEmail → Bool) :
    List FoundEmail → List FoundEmail
  | [] => []
  | x :: xs => insertIn le x (insertionSort le xs)

/-- `finder.find_contacts_from_pages`: fold every page into the
best-candidate-per-email dict, then sort the values descending by
`(confidence, role weight)`. -/
def find_contacts_from_pages (pages : List (Str × Str)) : List FoundEmail :=
  insertionSort rankLe ((pages.foldl process_page []).map (fun p => p.2))

/-- The personal-address heuristic of `ranker.pick_top_contacts`:
the mailbox part before the first `'@'` contains `'.'` or `'_'`. -/
def looksPersonal (f : FoundEmail) : Bool :=
  let loc := f.email.takeWhile (fun c => c != '@')
  loc.contains '.' || loc.contains '_'

/-- The accumulator loop of `ranker.pick_top_contacts`: skip
personal-looking candidates with confidence < 0.8 (8 tenths), append
the rest, and break as soon as `max_n` have been accepted (the length
check runs only after an acceptance). -/
def pickGo (max_n : Nat) : List FoundEmail → List FoundEmail → List FoundEmail
  | [], picked => picked
  | f :: fs, picked =>
      if looksPersonal f && f.confidence < 8 then pickGo max_n fs picked
      else
        let picked' := picked ++ [f]
        if max_n ≤ picked'.length then picked' else pickGo max_n fs picked'

/-- `ranker.pick_top_contacts` (the source's default for `max_n` is 3). -/
def pick_top_contacts (found : List FoundEmail) (max_n : Nat) : List FoundEmail :=
  pickGo max_n found []

/-- `DraftStatus.DRAFT` from `db/models.py`. -/
def DraftStatus.DRAFT : Str := "draft".toList

/-- `DraftStatus.APPROVED` from `db/models.py`. -/
def DraftStatus.APPROVED : Str := "approved".toList

/-- `DraftStatus.SENT` from `db/models.py`. -/
def DraftStatus.SENT : Str := "sent".toList

/-- `DraftStatus.FAILED` from `db/models.py`. -/
def DraftStatus.FAILED : Str := "failed".toList

/-- The `Contact` row of `db/models.py` (fields the worker reads). -/
structure Contact where
  id : Nat
  company_id : Nat
  email : Str
  found_on : Str := []
  role_guess : Str := []
  confidence : Nat := 0
deriving DecidableEq

/-- The `Company` row of `db/models.py` (fields the worker reads). -/
structure Company where
  id : Nat
  campaign_id : Nat
  name : Str
deriving DecidableEq

/-- The `Campaign` row of `db/models.py` (fields the worker reads). -/
structure Campaign where
  id : Nat
  attachment_paths : List Str := []
deriving DecidableEq

/-- The `Draft` row of `db/models.py`; timestamps are abstract clock
readings (`datetime.utcnow()` values), modelled as naturals. -/
structure Draft where
  id : Nat
  company_id : Nat
  contact_id : Option Nat := none
  subject : Str := []
  body_text : Str := []
  language : Str := "vi".toList
  personalization_notes : Str := []
  status : Str := DraftStatus.DRAFT
  created_at : Nat := 0
  updated_at : Nat := 0
deriving DecidableEq

/-- The append-only `SendAttempt` row of `db/models.py`. -/
structure SendAttempt where
  draft_id : Nat
  status : Str
  provider : Str := "smtp".toList
  provider_message_id : Str := []
  error : Str := []
  timestamp : Nat := 0
deriving DecidableEq

/-- The durable relational store the worker session operates on. -/
structure Store where
  campaigns : List Campaign := []
  companies : List Company := []
  contacts : List Contact := []
  drafts : List Draft := []
  attempts : List SendAttempt := []
deriving DecidableEq

/-- The draft-claim query of `worker.run_worker`:
`select(Draft).where(status == APPROVED).order_by(updated_at.asc()).first()`,
i.e. the first approved draft with minimal `updated_at` (ties keep the
earlier row). -/
def claimDraft (drafts : List Draft) : Option Draft :=
  (drafts.filter (fun d => d.status == DraftStatus.APPROVED)).foldl
    (fun acc d =>
      match acc with
      | none => some d
      | some m => if d.updated_at < m.updated_at then some d else some m) none

/-- `s.get(Contact, cid)`. -/
def getContact (st : Store) (cid : Nat) : Option Contact :=
  st.contacts.find? (fun c => c.id == cid)

/-- The recipient resolution of `worker.run_worker`:
`contact = s.get(Contact, draft.contact_id) if draft.contact_id else None`
(`draft.contact_id` of 0 is falsy in Python) followed by
`to_email = contact.email if contact else None`. -/
def resolveToEmail (st : Store) (d : Draft) : Option Str :=
  match d.contact_id with
  | some cid => if cid == 0 then none else (getContact st cid).map (fun c => c.email)
  | none => none

/-- Python truthiness of `to_email` in `if not to_email`: `None` and
the empty string are falsy. -/
def pyFalsyStrOpt : Option Str → Bool
  | none => true
  | some s => s.isEmpty

/-- Outcome of the external `send_smtp` capability: the provider
message id on success, or the exception text on any delivery failure. -/
inductive SmtpResult where
  | ok (provider_message_id : Str)
  | err (msg : Str)
deriving DecidableEq

/-- What one iteration of the worker loop did. -/
inductive StepEvent where
  | noDraft
  | fastFailed (draft_id : Nat)
  | sentOk (draft_id : Nat)
  | sendFailed (draft_id : Nat)
deriving DecidableEq

/-- Write back a mutated draft row (`s.add(draft); s.commit()`): the
row with the draft's primary key is replaced. -/
def setDraft (drafts : List Draft) (d : Draft) : List Draft :=
  drafts.map (fun x => if x.id == d.id then d else x)

/-- One iteration of the `while True` body of `worker.run_worker`,
from claiming a draft to the commit: `now` is the `datetime.utcnow()`
reading of this iteration and `smtp` the delivery outcome oracle.
Returns the committed store and what happened. -/
def workerStep (st : Store) (now : Nat) (smtp : SmtpResult) : Store × StepEvent :=
  match claimDraft st.drafts with
  | none => (st, .noDraft)
  | some draft =>
      let to_email := resolveToEmail st draft
      if pyFalsyStrOpt to_email then
        let d' := { draft with status := DraftStatus.FAILED, updated_at := now }
        ({ st with drafts := setDraft st.drafts d',
                   attempts := st.attempts ++
                     [{ draft_id := draft.id, status := "failed".toList,
                        error := "No recipient email selected".toList,
                        timestamp := now }] },
         .fastFailed draft.id)
      else
        match smtp with
        | .ok pid =>
            let d' := { draft with status := DraftStatus.SENT, updated_at := now }
            ({ st with drafts := setDraft st.drafts d',
                       attempts := st.attempts ++
                         [{ draft_id := draft.id, status := "sent".toList,
                            provider := "smtp".toList,
                            provider_message_id := pid, timestamp := now }] },
             .sentOk draft.id)
        | .err msg =>
            let d' := { draft with status := DraftStatus.FAILED, updated_at := now }
            ({ st with drafts := setDraft st.drafts d',
                       attempts := st.attempts ++
                         [{ draft_id := draft.id, status := "failed".toList,
                            provider := "smtp".toList, error := msg.take 500,
                            timestamp := now }] },
             .sendFailed draft.id)

/-- The sleep the loop performs after an iteration, in seconds:
the no-draft poll sleeps 5 (loop mode), the fast-fail path `continue`s
with no sleep, a successful send sleeps `RATE_LIMIT_SECONDS`, and a
delivery failure sleeps `min(30, RATE_LIMIT_SECONDS)`. -/
def iterSleep (rate_limit_seconds : Nat) : StepEvent → Nat
  | .noDraft => 5
  | .fastFailed _ => 0
  | .sentOk _ => rate_limit_seconds
  | .sendFailed _ => min 30 rate_limit_seconds

/-- `worker.run_worker` with `once=True`: iterate `workerStep`; with no
approved draft left, return; after a delivery attempt (sent or failed)
the trailing `if once: return` fires; after the fast-fail path the
`continue` statement jumps back to the top of the loop, *skipping* the
trailing `once` check, so the loop claims another draft.  `clock` and
`smtp` are per-iteration oracles; `fuel` bounds the iterations and
`none` means it was exhausted (any fuel above the number of approved
drafts is enough, see `run_worker_once_terminates`). -/
def run_worker_once : Nat → Store → (Nat → Nat) → (Nat → SmtpResult) → Nat →
    Option (Store × List StepEvent)
  | 0, _, _, _, _ => none
  | fuel + 1, st, clock, smtp, i =>
      match workerStep st (clock i) (smtp i) with
      | (st', .noDraft) => some (st', [.noDraft])
      | (st', .fastFailed d) =>
          match run_worker_once fuel st' clock smtp (i + 1) with
          | none => none
          | some (stf, evs) => some (stf, .fastFailed d :: evs)
      | (st', .sentOk d) => some (st', [.sentOk d])
      | (st', .sendFailed d) => some (st', [.sendFailed d])

/-- Number of drafts a worker run claimed (every event except the
empty-queue poll claims one approved draft). -/
def claimedCount (evs : List StepEvent) : Nat :=
  (evs.filter (fun e => match e with | .noDraft => false | _ => true)).length

/-- Number of actual delivery attempts in a worker run (sent or
delivery-failed; the fast-fail path never attempts delivery). -/
def deliveryCount (evs : List StepEvent) : Nat :=
  (evs.filter (fun e =>
    match e with | .sentOk _ => true | .sendFailed _ => true | _ => false)).length

/-- Number of approved drafts in the store. -/
def approvedCount (st : Store) : Nat :=
  (st.drafts.filter (fun d => d.status == DraftStatus.APPROVED)).length

/-- A value of the JSON brief dict: a string or an array of strings
(the only shapes `brief.py` produces). -/
inductive PyVal where
  | str (s : Str)
  | arr (l : List Str)
deriving DecidableEq

/-- Python `dict.get(k)`: `None` when absent. -/
def pyDictGet (d : List (Str × Str)) (k : Str) : Option Str :=
  (d.find? (fun p => p.1 == k)).map (fun p => p.2)

/-- Python `a or b` for an optional string `a`: `b` when `a` is `None`
or empty (falsy). -/
def pyOr (a : Option Str) (b : Str) : Str :=
  match a with
  | some s => if s.isEmpty then b else s
  | none => b

/-- Python `dict.get(k, dflt)`. -/
def pyDictGetD (d : List (Str × Str)) (k dflt : Str) : Str :=
  ((d.find? (fun p => p.1 == k)).map (fun p => p.2)).getD dflt

/-- The deterministic fallback dict built in the `except LLMError`
branch of `brief.build_personalization_brief`, field for field. -/
def fallback_brief (org_profile company_profile : List (Str × Str)) :
    List (Str × PyVal) :=
  [("company_angle".toList, .str
      (pyOr (pyDictGet company_profile "csr_focus".toList)
        (pyOr (pyDictGet company_profile "mission_values".toList)
          "phát triển bền vững / cộng đồng".toList))),
   ("why_match".toList, .arr
      ["Cùng hướng đến tác động tích cực cho cộng đồng.".toList]),
   ("best_cta".toList, .str "một cuộc gọi 15 phút".toList),
   ("benefits".toList, .arr
      ["Gắn thương hiệu với chương trình có tác động xã hội rõ ràng".toList,
       "Hiện diện trên kênh truyền thông của chương trình".toList,
       "Báo cáo/ghi nhận tác động sau chương trình".toList]),
   ("subject_ideas".toList, .arr
      [("Đề xuất đồng hành tài trợ cùng ".toList ++
          pyDictGetD org_profile "org_name".toList "chương trình".toList),
       ("Cơ hội hợp tác CSR: ".toList ++
          pyDictGetD org_profile "org_name".toList "chương trình".toList),
       "Kết nối hợp tác tài trợ".toList])]

/-- `brief.build_personalization_brief`: the external text-generation
capability (`json_from_llm`) is an oracle; `.error` is a raised
`LLMError`, on which the deterministic fallback dict is returned.  The
`language` argument only feeds the prompt text, not the fallback. -/
def build_personalization_brief (llm_result : Except Str (List (Str × PyVal)))
    (org_profile company_profile : List (Str × Str)) (language : Str) :
    List (Str × PyVal) :=
  match llm_result with
  | .ok d => d
  | .error _ => fallback_brief org_profile company_profile

/-- The five keys the brief dict must carry. -/
def BRIEF_KEYS : List Str :=
  ["company_angle".toList, "why_match".toList, "best_cta".toList,
   "benefits".toList, "subject_ideas".toList]

set_option maxRecDepth 8000

/-- Members of a `pickOlder`-style fold over the approved-draft list:
the result is the seed or an element of the list. -/
theorem claimDraft_fold_mem (l : List Draft) :
    ∀ (acc : Option Draft) (d : Draft),
      l.foldl (fun acc d =>
        match acc with
        | none => some d
        | some m => if d.updated_at < m.updated_at then some d else some m) acc = some d →
      acc = some d ∨ d ∈ l := by
  induction l with
  | nil => intro acc d h; exact Or.inl h
  | cons x xs ih =>
      intro acc d h
      rcases ih _ _ h with h' | h'
      · cases acc with
        | none =>
            simp only [] at h'
            exact Or.inr (by simp [← Option.some.inj h'])
        | some m =>
            simp only [] at h'
            split at h'
            · exact Or.inr (by simp [← Option.some.inj h'])
            · exact Or.inl h'
      · exact Or.inr (List.mem_cons_of_mem _ h')

/-- A claimed draft is a stored draft and is approved. -/
theorem claimDraft_mem {drafts : List Draft} {d : Draft}
    (h : claimDraft drafts = some d) :
    d ∈ drafts ∧ d.status = DraftStatus.APPROVED := by
  unfold claimDraft at h
  rcases claimDraft_fold_mem _ _ _ h with h' | h'
  · cases h'
  · rw [List.mem_filter] at h'
    exact ⟨h'.1, by simpa using h'.2⟩

/-- The fast-fail branch of `workerStep` in closed form: when the
claimed draft has no truthy recipient, the draft is failed, one
attempt row with the fixed error text is appended, and the event is
`fastFailed`. -/
theorem workerStep_fastFail_eq (st : Store) (now : Nat) (smtp : SmtpResult) (d : Draft)
    (hclaim : claimDraft st.drafts = some d)
    (hfalsy : pyFalsyStrOpt (resolveToEmail st d) = true) :
    workerStep st now smtp =
      ({ st with
          drafts := setDraft st.drafts
            { d with status := DraftStatus.FAILED, updated_at := now },
          attempts := st.attempts ++
            [{ draft_id := d.id, status := "failed".toList,
               error := "No recipient email selected".toList, timestamp := now }] },
       .fastFailed d.id) := by
  unfold workerStep
  rw [hclaim]
  simp only [hfalsy, if_true]

/-- Rows of `setDraft` that carry the updated draft's id have its
status. -/
theorem setDraft_status_of_id (ds : List Draft) (nd : Draft) :
    ∀ d' ∈ setDraft ds nd, d'.id = nd.id → d'.status = nd.status := by
  intro d' hmem hid
  simp only [setDraft, List.mem_map] at hmem
  obtain ⟨x, _, rfl⟩ := hmem
  by_cases hx : (x.id == nd.id) = true
  · simp [hx]
  · rw [if_neg (by simpa using hx)] at hid ⊢
    exact absurd hid (by simpa using hx)

/-- C5. Whenever the worker claims an approved draft for which no
recipient email is resolvable, it transitions that draft to FAILED,
appends exactly one failed attempt record whose error text is
"No recipient email selected", and proceeds without sleeping the
rate-limit interval (the fast-fail `continue` performs no sleep). -/
theorem worker_no_recipient_fast_fail (st : Store) (now : Nat) (smtp : SmtpResult)
    (rate_limit_seconds : Nat) (d : Draft)
    (hclaim : claimDraft st.drafts = some d)
    (hfalsy : pyFalsyStrOpt (resolveToEmail st d) = true) :
    (workerStep st now smtp).2 = .fastFailed d.id ∧
    (workerStep st now smtp).1.attempts = st.attempts ++
      [{ draft_id := d.id, status := "failed".toList,
         error := "No recipient email selected".toList, timestamp := now }] ∧
    (∀ d' ∈ (workerStep st now smtp).1.drafts, d'.id = d.id →
      d'.status = DraftStatus.FAILED) ∧
    iterSleep rate_limit_seconds (workerStep st now smtp).2 = 0 := by
  rw [workerStep_fastFail_eq st now smtp d hclaim hfalsy]
  refine ⟨rfl, rfl, ?_, rfl⟩
  intro d' hmem hid
  exact setDraft_status_of_id _ _ d' hmem hid

/-- The approved draft with `NULL` contact used by the fast-fail
witness. -/
def fastFailDraft : Draft :=
  { id := 1, company_id := 1, contact_id := none,
    status := DraftStatus.APPROVED, updated_at := 0 }

/-- Concrete store witnessing the fast-fail path: one approved draft
whose `contact_id` is `NULL`. -/
def fastFailStore : Store := { drafts := [fastFailDraft] }

/-- Witness for `worker_no_recipient_fast_fail` at a concrete store. -/
theorem worker_no_recipient_fast_fail_witness :
    (claimDraft fastFailStore.drafts = some fastFailDraft ∧
     pyFalsyStrOpt (resolveToEmail fastFailStore fastFailDraft) = true) ∧
    ((workerStep fastFailStore 7 (.ok [])).2 = .fastFailed 1 ∧
     (workerStep fastFailStore 7 (.ok [])).1.attempts = fastFailStore.attempts ++
       [{ draft_id := 1, status := "failed".toList,
          error := "No recipient email selected".toList, timestamp := 7 }] ∧
     (∀ d' ∈ (workerStep fastFailStore 7 (.ok [])).1.drafts, d'.id = 1 →
       d'.status = DraftStatus.FAILED) ∧
     iterSleep 60 (workerStep fastFailStore 7 (.ok [])).2 = 0) :=
  ⟨⟨by decide, by decide⟩,
   worker_no_recipient_fast_fail fastFailStore 7 (.ok []) 60 fastFailDraft
     (by decide) (by decide)⟩

/-- C10. The fast-fail path also fires when the selected contact
exists but its email field is the empty string: any falsy resolved
recipient email (not only a missing contact) routes the draft to
FAILED with the "No recipient email selected" error instead of a
delivery attempt. -/
theorem worker_empty_email_fast_fail (st : Store) (now : Nat) (smtp : SmtpResult)
    (d : Draft) (cid : Nat) (c : Contact)
    (hclaim : claimDraft st.drafts = some d)
    (hcid : d.contact_id = some cid) (hcid0 : cid ≠ 0)
    (hc : getContact st cid = some c) (hemail : c.email = []) :
    (workerStep st now smtp).2 = .fastFailed d.id ∧
    (workerStep st now smtp).1.attempts = st.attempts ++
      [{ draft_id := d.id, status := "failed".toList,
         error := "No recipient email selected".toList, timestamp := now }] ∧
    (∀ d' ∈ (workerStep st now smtp).1.drafts, d'.id = d.id →
      d'.status = DraftStatus.FAILED) := by
  have hfalsy : pyFalsyStrOpt (resolveToEmail st d) = true := by
    simp [resolveToEmail, hcid, hcid0, hc, pyFalsyStrOpt, hemail]
  rw [workerStep_fastFail_eq st now smtp d hclaim hfalsy]
  refine ⟨rfl, rfl, ?_⟩
  intro d' hmem hid
  exact setDraft_status_of_id _ _ d' hmem hid

/-- The empty-email contact used by the empty-email witness. -/
def emptyEmailContact : Contact := { id := 4, company_id := 1, email := [] }

/-- The approved draft selecting the empty-email contact. -/
def emptyEmailDraft : Draft :=
  { id := 2, company_id := 1, contact_id := some 4,
    status := DraftStatus.APPROVED, updated_at := 0 }

/-- Concrete store witnessing the empty-email fast-fail: the approved
draft's selected contact exists and has email `""`. -/
def emptyEmailStore : Store :=
  { contacts := [emptyEmailContact], drafts := [emptyEmailDraft] }

/-- Witness for `worker_empty_email_fast_fail` at a concrete store. -/
theorem worker_empty_email_fast_fail_witness :
    (claimDraft emptyEmailStore.drafts = some emptyEmailDraft ∧
     emptyEmailDraft.contact_id = some 4 ∧ (4 : Nat) ≠ 0 ∧
     getContact emptyEmailStore 4 = some emptyEmailContact ∧
     emptyEmailContact.email = []) ∧
    ((workerStep emptyEmailStore 9 (.ok [])).2 = .fastFailed 2 ∧
     (workerStep emptyEmailStore 9 (.ok [])).1.attempts = emptyEmailStore.attempts ++
       [{ draft_id := 2, status := "failed".toList,
          error := "No recipient email selected".toList, timestamp := 9 }] ∧
     (∀ d' ∈ (workerStep emptyEmailStore 9 (.ok [])).1.drafts, d'.id = 2 →
       d'.status = DraftStatus.FAILED)) :=
  ⟨⟨by decide, by decide, by decide, by decide, by decide⟩,
   worker_empty_email_fast_fail emptyEmailStore 9 (.ok []) emptyEmailDraft 4
     emptyEmailContact (by decide) (by decide) (by decide) (by decide) (by decide)⟩

/-- C3 counterexample. On the scenario input the classifier's
confidence is not 0.6 (6 tenths): besides the role match (+0.6), the
generic-inbox hint `info@` matches (+0.2) and the page text contains
"partnership", which *is* in the sponsorship-vocabulary list (+0.2),
so the clamped confidence is 1.0. -/
theorem guess_role_partnership_scenario_not_point_six :
    ¬ ((guess_role "info@acme.org".toList "https://acme.org/partnership".toList
        "Contact: info@acme.org for partnership inquiries".toList).2 = 6) := by
  decide

/-- C3 amended. For email "info@acme.org", URL
"https://acme.org/partnership" and page text
"Contact: info@acme.org for partnership inquiries", `guess_role`
returns role `partnership` with confidence 1.0 (10 tenths): role match
+0.6, generic-inbox hint +0.2, sponsorship-vocabulary boost +0.2
(the text word "partnership" is in the vocabulary list), clamped. -/
theorem guess_role_partnership_scenario_value :
    guess_role "info@acme.org".toList "https://acme.org/partnership".toList
      "Contact: info@acme.org for partnership inquiries".toList
      = ("partnership".toList, 10) := by
  decide

/-- C4 counterexample. For email "info@x.com", URL "https://x.com/csr"
and empty page text, the URL contains the CSR stem "csr" and the text
contains no sponsorship vocabulary, yet the confidence is 0.8
(8 tenths), because the generic-inbox hint `info@` adds 0.2. -/
theorem guess_role_csr_generic_inbox_gives_eight :
    CSR_KEYWORDS.any (fun k => pyIn k (pyLower "https://x.com/csr".toList)) = true ∧
    SPONSOR_TERMS.any (fun k => pyIn k (pyLower "".toList)) = false ∧
    guess_role "info@x.com".toList "https://x.com/csr".toList "".toList
      = ("csr".toList, 8) := by
  decide

/-- C4 amended. For every (email, url, text) where the lower-cased URL
contains a CSR keyword stem, the lower-cased text contains no
sponsorship-vocabulary word, and additionally the lower-cased email
matches no generic-inbox hint, `guess_role` returns role `csr` with
confidence exactly 0.6 (6 tenths). -/
theorem guess_role_csr_no_vocab_no_generic_confidence (email url text : Str)
    (h1 : CSR_KEYWORDS.any (fun k => pyIn k (pyLower url)) = true)
    (h2 : SPONSOR_TERMS.any (fun k => pyIn k (pyLower text)) = false)
    (h3 : GENERIC_INBOX_HINTS.any (fun h => pyIn h (pyLower email)) = false) :
    guess_role email url text = ("csr".toList, 6) := by
  have hfind : ROLE_KEYWORDS.find? (fun p =>
      p.2.any (fun k => pyIn k (pyLower email)) ||
        p.2.any (fun k => pyIn k (pyLower url)))
      = some ("csr".toList, CSR_KEYWORDS) := by
    simp only [ROLE_KEYWORDS, List.find?]
    simp [h1]
  unfold guess_role
  simp only [hfind, h2, h3]
  decide

/-- Witness for `guess_role_csr_no_vocab_no_generic_confidence` at a
concrete non-generic email with a CSR URL and vocabulary-free text. -/
theorem guess_role_csr_no_vocab_no_generic_confidence_witness :
    (CSR_KEYWORDS.any (fun k => pyIn k (pyLower "https://y.com/csr".toList)) = true ∧
     SPONSOR_TERMS.any (fun k => pyIn k (pyLower "mail us".toList)) = false ∧
     GENERIC_INBOX_HINTS.any (fun h => pyIn h (pyLower "x@y.com".toList)) = false) ∧
    guess_role "x@y.com".toList "https://y.com/csr".toList "mail us".toList
      = ("csr".toList, 6) :=
  ⟨⟨by decide, by decide, by decide⟩,
   guess_role_csr_no_vocab_no_generic_confidence _ _ _
     (by decide) (by decide) (by decide)⟩

/-- C9. Whenever the text-generation capability fails with a
capability error (`LLMError`), `build_personalization_brief` returns
the deterministic fallback brief and that brief carries exactly the
five required keys in order; the builder itself is a total function,
so this path never fails. -/
theorem brief_fallback_on_capability_error (msg : Str)
    (org_profile company_profile : List (Str × Str)) (language : Str) :
    build_personalization_brief (.error msg) org_profile company_profile language
      = fallback_brief org_profile company_profile ∧
    (build_personalization_brief (.error msg) org_profile company_profile
        language).map (fun p => p.1) = BRIEF_KEYS :=
  ⟨rfl, rfl⟩

/-- Length bound of the selector loop: the result never exceeds
`max max_n (picked.length + 1)` (the `+ 1` slack exists because the
break check runs only after an acceptance). -/
theorem pickGo_length (max_n : Nat) (fs : List FoundEmail) :
    ∀ picked, (pickGo max_n fs picked).length ≤ max max_n (picked.length + 1) := by
  induction fs with
  | nil => intro picked; simp [pickGo]
  | cons f fs ih =>
      intro picked
      simp only [pickGo]
      split
      · exact le_trans (ih picked) (le_refl _)
      · split
        · simp
        · next hbreak =>
            refine le_trans (ih (picked ++ [f])) ?_
            simp at hbreak ⊢
            omega

/-- The selector loop never adds a personal-looking candidate with
confidence below 0.8 (8 tenths). -/
theorem pickGo_personal (max_n : Nat) (fs : List FoundEmail) :
    ∀ picked, (∀ f ∈ picked, looksPersonal f = true → 8 ≤ f.confidence) →
      ∀ f ∈ pickGo max_n fs picked, looksPersonal f = true → 8 ≤ f.confidence := by
  induction fs with
  | nil => intro picked hp; simpa [pickGo] using hp
  | cons f fs ih =>
      intro picked hp
      simp only [pickGo]
      split
      · exact ih picked hp
      · next hskip =>
          have hf : looksPersonal f = true → 8 ≤ f.confidence := by
            intro hlp
            by_contra hc
            exact hskip (by simp [hlp]; omega)
          have hp' : ∀ g ∈ picked ++ [f], looksPersonal g = true → 8 ≤ g.confidence := by
            intro g hg
            rcases List.mem_append.mp hg with hg | hg
            · exact hp g hg
            · rw [List.mem_singleton.mp hg]; exact hf
          split
          · exact hp'
          · exact ih (picked ++ [f]) hp'

/-- The selector loop returns its accumulator extended by a
subsequence of the remaining candidates (acceptance in rank order). -/
theorem pickGo_sublist (max_n : Nat) (fs : List FoundEmail) :
    ∀ picked, ∃ s, pickGo max_n fs picked = picked ++ s ∧ s.Sublist fs := by
  induction fs with
  | nil => intro picked; exact ⟨[], by simp [pickGo]⟩
  | cons f fs ih =>
      intro picked
      simp only [pickGo]
      split
      · obtain ⟨s, hs, hsub⟩ := ih picked
        exact ⟨s, hs, hsub.cons f⟩
      · split
        · exact ⟨[f], rfl, by simp⟩
        · obtain ⟨s, hs, hsub⟩ := ih (picked ++ [f])
          exact ⟨f :: s, by simpa using hs, hsub.cons₂ f⟩

/-- The single acceptable candidate of the C6 counterexample. -/
def zeroCand : FoundEmail :=
  { email := "a@b.com".toList, found_on := [],
    role_guess := "generic".toList, confidence := 2 }

/-- C6 counterexample. With maximum count N = 0 and one acceptable
candidate, `pick_top_contacts` returns one candidate, not at most 0:
the loop appends before it checks the count. -/
theorem pick_top_contacts_zero_returns_one :
    pick_top_contacts [zeroCand] 0 = [zeroCand] ∧
    ¬ ((pick_top_contacts [zeroCand] 0).length ≤ 0) := by
  decide

/-- C6 amended. For every ranked candidate list and maximum count N,
`pick_top_contacts` returns at most `max N 1` candidates (so at most N
whenever N ≥ 1; for N = 0 a single candidate may still be returned,
because the count check runs only after an acceptance), never includes
a personal-looking candidate with confidence below 0.8 (8 tenths), and
accepts candidates in rank order (the result is a subsequence of the
input). -/
theorem pick_top_contacts_bound_filter_order (found : List FoundEmail) (max_n : Nat) :
    (pick_top_contacts found max_n).length ≤ max max_n 1 ∧
    (1 ≤ max_n → (pick_top_contacts found max_n).length ≤ max_n) ∧
    (∀ f ∈ pick_top_contacts found max_n, looksPersonal f = true →
      8 ≤ f.confidence) ∧
    (pick_top_contacts found max_n).Sublist found := by
  refine ⟨?_, ?_, ?_, ?_⟩
  · simpa using pickGo_length max_n found []
  · intro h1
    have h2 := pickGo_length max_n found []
    simp only [pick_top_contacts]
    simp at h2
    omega
  · exact pickGo_personal max_n found [] (by simp)
  · obtain ⟨s, hs, hsub⟩ := pickGo_sublist max_n found []
    simpa [pick_top_contacts, hs] using hsub

/-- Concrete ranked list for the selector witness: a low-confidence
personal address followed by a generic inbox. -/
def witnessRanked : List FoundEmail :=
  [{ email := "a.b@y.com".toList, found_on := [],
     role_guess := "unknown".toList, confidence := 7 },
   { email := "info@y.com".toList, found_on := [],
     role_guess := "generic".toList, confidence := 2 }]

/-- Witness for `pick_top_contacts_bound_filter_order` on a concrete
ranked list: the low-confidence personal address is skipped. -/
theorem pick_top_contacts_bound_filter_order_witness :
    (pick_top_contacts witnessRanked 3).length ≤ max 3 1 ∧
    (1 ≤ 3 → (pick_top_contacts witnessRanked 3).length ≤ 3) ∧
    (∀ f ∈ pick_top_contacts witnessRanked 3, looksPersonal f = true →
      8 ≤ f.confidence) ∧
    (pick_top_contacts witnessRanked 3).Sublist witnessRanked :=
  pick_top_contacts_bound_filter_order witnessRanked 3

/-- The success branch of `workerStep` in closed form: truthy
recipient and a successful SMTP call commit the SENT transition and
append one sent attempt with the provider message id. -/
theorem workerStep_sent_eq (st : Store) (now : Nat) (pid : Str) (d : Draft)
    (hclaim : claimDraft st.drafts = some d)
    (hfalsy : pyFalsyStrOpt (resolveToEmail st d) = false) :
    workerStep st now (.ok pid) =
      ({ st with
          drafts := setDraft st.drafts
            { d with status := DraftStatus.SENT, updated_at := now },
          attempts := st.attempts ++
            [{ draft_id := d.id, status := "sent".toList, provider := "smtp".toList,
               provider_message_id := pid, timestamp := now }] },
       .sentOk d.id) := by
  unfold workerStep
  rw [hclaim]
  simp only [hfalsy, Bool.false_eq_true, if_false]

/-- The delivery-failure branch of `workerStep` in closed form: truthy
recipient and a raising SMTP call commit the FAILED transition and
append one failed attempt carrying the truncated error text. -/
theorem workerStep_sendFailed_eq (st : Store) (now : Nat) (msg : Str) (d : Draft)
    (hclaim : claimDraft st.drafts = some d)
    (hfalsy : pyFalsyStrOpt (resolveToEmail st d) = false) :
    workerStep st now (.err msg) =
      ({ st with
          drafts := setDraft st.drafts
            { d with status := DraftStatus.FAILED, updated_at := now },
          attempts := st.attempts ++
            [{ draft_id := d.id, status := "failed".toList, provider := "smtp".toList,
               error := msg.take 500, timestamp := now }] },
       .sendFailed d.id) := by
  unfold workerStep
  rw [hclaim]
  simp only [hfalsy, Bool.false_eq_true, if_false]

/-- In a store with distinct draft ids, a row whose status changed
across `setDraft` must be the updated draft itself, and the stored row
it replaced must be the draft that was updated. -/
theorem setDraft_changed_eq (ds : List Draft)
    (hnd : (ds.map (fun d => d.id)).Nodup)
    (draft nd : Draft) (hmem : draft ∈ ds) (hid : nd.id = draft.id) :
    ∀ d ∈ ds, ∀ d' ∈ setDraft ds nd, d'.id = d.id → d'.status ≠ d.status →
      d = draft ∧ d' = nd := by
  intro d hd d' hd' heq hne
  have hinj := List.inj_on_of_nodup_map hnd
  simp only [setDraft, List.mem_map] at hd'
  obtain ⟨x, hx, rfl⟩ := hd'
  by_cases hbeq : (x.id == nd.id) = true
  · have hxid : x.id = nd.id := by simpa using hbeq
    rw [if_pos hbeq] at heq hne ⊢
    have hddraft : d = draft := hinj hd hmem (by rw [← heq, hid])
    exact ⟨hddraft, rfl⟩
  · rw [if_neg hbeq] at heq hne
    have hxd : x = d := hinj hx hd heq
    exact absurd (congrArg Draft.status hxd) hne

/-- C1. For every worker iteration that changes a draft's status (to
SENT or to FAILED — the only transitions the loop performs), exactly
one new send-attempt record is appended in the same commit, with the
matching outcome type and the changed draft's id, and the draft's
`updated_at` moves to the iteration's clock reading, which is strictly
later than every stored timestamp; conversely a row whose status did
not change never gains an attempt through this pairing.  Hypotheses:
draft primary keys are distinct and the clock reading is ahead of all
stored `updated_at` values. -/
theorem worker_sent_failed_attempt_audit (st : Store) (now : Nat) (smtp : SmtpResult)
    (hids : (st.drafts.map (fun d => d.id)).Nodup)
    (hclock : ∀ d ∈ st.drafts, d.updated_at < now) :
    ∀ d ∈ st.drafts, ∀ d' ∈ (workerStep st now smtp).1.drafts,
      d'.id = d.id → d'.status ≠ d.status →
      (d'.status = DraftStatus.SENT ∨ d'.status = DraftStatus.FAILED) ∧
      d.updated_at < d'.updated_at ∧
      ∃ a, (workerStep st now smtp).1.attempts = st.attempts ++ [a] ∧
        a.draft_id = d.id ∧ a.timestamp = now ∧
        (d'.status = DraftStatus.SENT → a.status = "sent".toList) ∧
        (d'.status = DraftStatus.FAILED → a.status = "failed".toList) := by
  rcases hclaim : claimDraft st.drafts with _ | draft
  · have hstep : workerStep st now smtp = (st, .noDraft) := by
      unfold workerStep; rw [hclaim]
    rw [hstep]
    intro d hd d' hd' hid hne
    have hinj := List.inj_on_of_nodup_map hids
    exact absurd (congrArg Draft.status (hinj hd' hd hid)) hne
  · obtain ⟨hdmem, _⟩ := claimDraft_mem hclaim
    by_cases hf : pyFalsyStrOpt (resolveToEmail st draft) = true
    · rw [workerStep_fastFail_eq st now smtp draft hclaim hf]
      intro d hd d' hd' hid hne
      obtain ⟨rfl, rfl⟩ :=
        setDraft_changed_eq st.drafts hids draft
          { draft with status := DraftStatus.FAILED, updated_at := now }
          hdmem rfl d hd d' hd' hid hne
      refine ⟨Or.inr rfl, hclock _ hd, ⟨_, rfl, rfl, rfl, ?_, fun _ => rfl⟩⟩
      intro h
      have h2 : DraftStatus.FAILED = DraftStatus.SENT := h
      exact absurd h2 (by decide)
    · have hf' : pyFalsyStrOpt (resolveToEmail st draft) = false :=
        Bool.not_eq_true _ ▸ eq_false_of_ne_true hf
      cases smtp with
      | ok pid =>
          rw [workerStep_sent_eq st now pid draft hclaim hf']
          intro d hd d' hd' hid hne
          obtain ⟨rfl, rfl⟩ :=
            setDraft_changed_eq st.drafts hids draft
              { draft with status := DraftStatus.SENT, updated_at := now }
              hdmem rfl d hd d' hd' hid hne
          refine ⟨Or.inl rfl, hclock _ hd, ⟨_, rfl, rfl, rfl, fun _ => rfl, ?_⟩⟩
          intro h
          have h2 : DraftStatus.SENT = DraftStatus.FAILED := h
          exact absurd h2 (by decide)
      | err msg =>
          rw [workerStep_sendFailed_eq st now msg draft hclaim hf']
          intro d hd d' hd' hid hne
          obtain ⟨rfl, rfl⟩ :=
            setDraft_changed_eq st.drafts hids draft
              { draft with status := DraftStatus.FAILED, updated_at := now }
              hdmem rfl d hd d' hd' hid hne
          refine ⟨Or.inr rfl, hclock _ hd, ⟨_, rfl, rfl, rfl, ?_, fun _ => rfl⟩⟩
          intro h
          have h2 : DraftStatus.FAILED = DraftStatus.SENT := h
          exact absurd h2 (by decide)

/-- The approved draft with a deliverable contact used by the audit
witness. -/
def auditDraft : Draft :=
  { id := 3, company_id := 1, contact_id := some 5,
    status := DraftStatus.APPROVED, updated_at := 2 }

/-- Store for the audit witness: one approved draft whose contact has
a real email address. -/
def auditStore : Store :=
  { contacts := [{ id := 5, company_id := 1, email := "a@b.com".toList }],
    drafts := [auditDraft] }

/-- Witness for `worker_sent_failed_attempt_audit`: a successful
delivery run on `auditStore` at clock reading 6. -/
theorem worker_sent_failed_attempt_audit_witness :
    ((auditStore.drafts.map (fun d => d.id)).Nodup ∧
     ∀ d ∈ auditStore.drafts, d.updated_at < 6) ∧
    (∀ d ∈ auditStore.drafts,
      ∀ d' ∈ (workerStep auditStore 6 (.ok "mid".toList)).1.drafts,
      d'.id = d.id → d'.status ≠ d.status →
      (d'.status = DraftStatus.SENT ∨ d'.status = DraftStatus.FAILED) ∧
      d.updated_at < d'.updated_at ∧
      ∃ a, (workerStep auditStore 6 (.ok "mid".toList)).1.attempts
          = auditStore.attempts ++ [a] ∧
        a.draft_id = d.id ∧ a.timestamp = 6 ∧
        (d'.status = DraftStatus.SENT → a.status = "sent".toList) ∧
        (d'.status = DraftStatus.FAILED → a.status = "failed".toList)) :=
  ⟨⟨by decide, by decide⟩,
   worker_sent_failed_attempt_audit auditStore 6 (.ok "mid".toList)
     (by decide) (by decide)⟩

/-- `setDraft` never changes the list of draft ids. -/
theorem setDraft_ids (ds : List Draft) (nd : Draft) :
    (setDraft ds nd).map (fun d => d.id) = ds.map (fun d => d.id) := by
  induction ds with
  | nil => rfl
  | cons x xs ih =>
      show ((if (x.id == nd.id) then nd else x).id) :: (setDraft xs nd).map _
          = x.id :: xs.map _
      by_cases h : (x.id == nd.id) = true
      · rw [if_pos h, ih]
        have h2 : nd.id = x.id := (show x.id = nd.id by simpa using h).symm
        rw [h2]
      · rw [if_neg (by simpa using h), ih]

/-- `setDraft` is the identity when no stored row carries the updated
draft's id. -/
theorem setDraft_eq_of_ne (ds : List Draft) (nd : Draft)
    (h : ∀ y ∈ ds, (y.id == nd.id) = false) : setDraft ds nd = ds := by
  induction ds with
  | nil => rfl
  | cons x xs ih =>
      show (if (x.id == nd.id) then nd else x) :: setDraft xs nd = x :: xs
      rw [if_neg (by simpa using h x (List.mem_cons_self x xs)),
        ih (fun y hy => h y (List.mem_cons_of_mem x hy))]

/-- Failing one approved draft through `setDraft` strictly decreases
the number of approved drafts (draft ids distinct). -/
theorem approvedCount_setDraft_lt (ds : List Draft)
    (hnd : (ds.map (fun d => d.id)).Nodup)
    (draft : Draft) (hmem : draft ∈ ds)
    (happ : draft.status = DraftStatus.APPROVED)
    (nd : Draft) (hid : nd.id = draft.id)
    (hns : (nd.status == DraftStatus.APPROVED) = false) :
    ((setDraft ds nd).filter (fun d => d.status == DraftStatus.APPROVED)).length
      < (ds.filter (fun d => d.status == DraftStatus.APPROVED)).length := by
  induction ds with
  | nil => cases hmem
  | cons x xs ih =>
      simp only [List.map_cons, List.nodup_cons] at hnd
      obtain ⟨hxnotin, hxs⟩ := hnd
      rcases List.mem_cons.mp hmem with rfl | hmem'
      · have hbeq : (draft.id == nd.id) = true := by simp [hid]
        have hrest : setDraft xs nd = xs := by
          apply setDraft_eq_of_ne
          intro y hy
          have hyx : y.id ≠ draft.id := fun hcon =>
            hxnotin (hcon ▸ List.mem_map_of_mem (fun d => d.id) hy)
          simp [hid, hyx]
        show (((if (draft.id == nd.id) then nd else draft) :: setDraft xs nd).filter _).length
            < ((draft :: xs).filter _).length
        rw [if_pos hbeq, hrest]
        simp [List.filter_cons, happ, hns]
      · have hxne : (x.id == nd.id) = false := by
          rw [hid]
          have hxd : x.id ≠ draft.id := fun hcon =>
            hxnotin (hcon ▸ List.mem_map_of_mem (fun d => d.id) hmem')
          simp [hxd]
        show (((if (x.id == nd.id) then nd else x) :: setDraft xs nd).filter _).length
            < ((x :: xs).filter _).length
        rw [if_neg (by simpa using hxne)]
        have hih := ih hxs hmem'
        by_cases hxapp : (x.status == DraftStatus.APPROVED) = true
        · simp only [List.filter_cons, hxapp, if_true, List.length_cons]
          omega
        · simp only [List.filter_cons, hxapp, Bool.false_eq_true, if_false]
          exact hih

/-- Inversion of the fast-fail event: a `fastFailed` step came from a
claimed approved draft with the failed row written back. -/
theorem workerStep_fastFailed_inv (st : Store) (now : Nat) (smtp : SmtpResult)
    (st' : Store) (did : Nat)
    (h : workerStep st now smtp = (st', .fastFailed did)) :
    ∃ draft, claimDraft st.drafts = some draft ∧ did = draft.id ∧
      draft ∈ st.drafts ∧ draft.status = DraftStatus.APPROVED ∧
      st'.drafts = setDraft st.drafts
        { draft with status := DraftStatus.FAILED, updated_at := now } := by
  rcases hclaim : claimDraft st.drafts with _ | draft
  · rw [show workerStep st now smtp = (st, .noDraft) by
        unfold workerStep; rw [hclaim]] at h
    injection h with _ hev
    cases hev
  · obtain ⟨hm, ha⟩ := claimDraft_mem hclaim
    by_cases hf : pyFalsyStrOpt (resolveToEmail st draft) = true
    · rw [workerStep_fastFail_eq st now smtp draft hclaim hf] at h
      injection h with hst hev
      injection hev with hdid
      exact ⟨draft, rfl, hdid.symm, hm, ha, by rw [← hst]⟩
    · have hf' : pyFalsyStrOpt (resolveToEmail st draft) = false :=
        Bool.not_eq_true _ ▸ eq_false_of_ne_true hf
      cases smtp with
      | ok pid =>
          rw [workerStep_sent_eq st now pid draft hclaim hf'] at h
          injection h with _ hev
          cases hev
      | err msg =>
          rw [workerStep_sendFailed_eq st now msg draft hclaim hf'] at h
          injection h with _ hev
          cases hev

/-- C2 amended. A `--once` run terminates normally (given fuel above
the approved-draft count) and performs at most one actual delivery
attempt; fast-failed drafts do not end the run, so it may claim
several drafts before its single delivery attempt or exit. -/
theorem run_once_terminates_with_at_most_one_delivery :
    ∀ (fuel : Nat) (st : Store) (clock : Nat → Nat) (smtp : Nat → SmtpResult) (i : Nat),
      (st.drafts.map (fun d => d.id)).Nodup → approvedCount st < fuel →
      ∃ r, run_worker_once fuel st clock smtp i = some r ∧ deliveryCount r.2 ≤ 1 := by
  intro fuel
  induction fuel with
  | zero =>
      intro st clock smtp i hnd hcnt
      exact absurd hcnt (by omega)
  | succ fuel ih =>
      intro st clock smtp i hnd hcnt
      rcases hstep : workerStep st (clock i) (smtp i) with ⟨st', ev⟩
      cases ev with
      | noDraft =>
          refine ⟨(st', [.noDraft]), ?_, by simp [deliveryCount]⟩
          simp only [run_worker_once, hstep]
      | fastFailed d =>
          obtain ⟨draft, hclaim, hdid, hm, ha, hdrafts⟩ :=
            workerStep_fastFailed_inv _ _ _ _ _ hstep
          have hnd' : (st'.drafts.map (fun d => d.id)).Nodup := by
            rw [hdrafts, setDraft_ids]; exact hnd
          have hdec : approvedCount st' < approvedCount st := by
            unfold approvedCount
            rw [hdrafts]
            exact approvedCount_setDraft_lt st.drafts hnd draft hm ha _ rfl
              (show (DraftStatus.FAILED == DraftStatus.APPROVED) = false by decide)
          obtain ⟨⟨stf, evs⟩, hrun, hdel⟩ := ih st' clock smtp (i + 1) hnd' (by omega)
          refine ⟨(stf, .fastFailed d :: evs), ?_, ?_⟩
          · simp only [run_worker_once, hstep, hrun]
          · simpa [deliveryCount, List.filter_cons] using hdel
      | sentOk d =>
          refine ⟨(st', [.sentOk d]), ?_, ?_⟩
          · simp only [run_worker_once, hstep]
          · simp [deliveryCount, List.filter_cons]
      | sendFailed d =>
          refine ⟨(st', [.sendFailed d]), ?_, ?_⟩
          · simp only [run_worker_once, hstep]
          · simp [deliveryCount, List.filter_cons]

/-- Store for the `--once` counterexample: the oldest approved draft
has no contact (fast-fail) and a second approved draft is deliverable. -/
def onceStore : Store :=
  { contacts := [{ id := 1, company_id := 1, email := "a@b.com".toList }],
    drafts := [{ id := 1, company_id := 1, contact_id := none,
                 status := DraftStatus.APPROVED, updated_at := 0 },
               { id := 2, company_id := 1, contact_id := some 1,
                 status := DraftStatus.APPROVED, updated_at := 1 }] }

/-- C2 counterexample. In `--once` mode on `onceStore` the run claims
TWO approved drafts: the fast-fail path's `continue` skips the
trailing `if once: return`, so after failing draft 1 the loop claims
and sends draft 2.  This refutes "processes at most one approved
draft" for every initial store. -/
theorem run_once_fastfail_claims_second_draft :
    (run_worker_once 3 onceStore (fun i => 10 + i)
        (fun _ => SmtpResult.ok "mid".toList) 0).map
        (fun r => (r.2, claimedCount r.2)) =
      some ([StepEvent.fastFailed 1, StepEvent.sentOk 2], 2) ∧ ¬ (2 ≤ 1) := by
  decide

/-- Witness for `run_once_terminates_with_at_most_one_delivery` on the
concrete two-draft store. -/
theorem run_once_terminates_witness :
    ((onceStore.drafts.map (fun d => d.id)).Nodup ∧ approvedCount onceStore < 3) ∧
    ∃ r, run_worker_once 3 onceStore (fun i => 10 + i)
        (fun _ => SmtpResult.ok "mid".toList) 0 = some r ∧ deliveryCount r.2 ≤ 1 :=
  ⟨⟨by decide, by decide⟩,
   run_once_terminates_with_at_most_one_delivery 3 onceStore (fun i => 10 + i)
     (fun _ => SmtpResult.ok "mid".toList) 0 (by decide) (by decide)⟩

/-- `ltStr` is irreflexive. -/
theorem ltStr_irrefl (l : Str) : ltStr l l = false := by
  induction l with
  | nil => rfl
  | cons a as ih => simp [ltStr, ih]

/-- `ltStr` is transitive. -/
theorem ltStr_trans : ∀ {a b c : Str},
    ltStr a b = true → ltStr b c = true → ltStr a c = true
  | [], [], _, h1, _ => by cases h1
  | [], _ :: _, [], _, h2 => by cases h2
  | [], _ :: _, _ :: _, _, _ => rfl
  | _ :: _, [], _, h1, _ => by cases h1
  | _ :: _, _ :: _, [], _, h2 => by cases h2
  | x :: xs, y :: ys, z :: zs, h1, h2 => by
      simp only [ltStr] at h1 h2 ⊢
      by_cases hxy : x < y
      · by_cases hyz : y < z
        · simp [lt_trans hxy hyz]
        · rw [if_neg hyz] at h2
          by_cases hzy : z < y
          · rw [if_pos hzy] at h2; cases h2
          · have heq : y = z := le_antisymm (not_lt.mp hzy) (not_lt.mp hyz)
            rw [← heq]
            simp [hxy]
      · rw [if_neg hxy] at h1
        by_cases hyx : y < x
        · rw [if_pos hyx] at h1; cases h1
        · rw [if_neg hyx] at h1
          have hxy' : x = y := le_antisymm (not_lt.mp hyx) (not_lt.mp hxy)
          by_cases hyz : y < z
          · simp [hxy' ▸ hyz]
          · rw [if_neg hyz] at h2
            by_cases hzy : z < y
            · rw [if_pos hzy] at h2; cases h2
            · rw [if_neg hzy] at h2
              have hyz' : y = z := le_antisymm (not_lt.mp hzy) (not_lt.mp hyz)
              have hxz : x = z := hxy'.trans hyz'
              rw [hxz]
              simp [lt_irrefl, ltStr_trans h1 h2]

/-- Members of `sortedInsert` are the inserted string or old members. -/
theorem mem_sortedInsert {z x : Str} :
    ∀ {l : List Str}, z ∈ sortedInsert x l → z = x ∨ z ∈ l := by
  intro l
  induction l with
  | nil =>
      intro h
      simp [sortedInsert] at h
      exact Or.inl h
  | cons y ys ih =>
      intro h
      simp only [sortedInsert] at h
      split at h
      · rcases List.mem_cons.mp h with h | h
        · exact Or.inl h
        · exact Or.inr h
      · split at h
        · rcases List.mem_cons.mp h with rfl | h
          · exact Or.inr (List.mem_cons_self _ _)
          · rcases ih h with h | h
            · exact Or.inl h
            · exact Or.inr (List.mem_cons_of_mem _ h)
        · exact Or.inr h

/-- `sortedInsert` preserves strict sortedness. -/
theorem pairwise_sortedInsert {x : Str} :
    ∀ {l : List Str}, l.Pairwise (fun a b => ltStr a b = true) →
      (sortedInsert x l).Pairwise (fun a b => ltStr a b = true) := by
  intro l
  induction l with
  | nil => intro _; simp [sortedInsert]
  | cons y ys ih =>
      intro hp
      obtain ⟨hy, hys⟩ := List.pairwise_cons.mp hp
      simp only [sortedInsert]
      split
      · next hxy =>
          refine List.pairwise_cons.mpr ⟨?_, hp⟩
          intro b hb
          rcases List.mem_cons.mp hb with rfl | hb
          · exact hxy
          · exact ltStr_trans hxy (hy b hb)
      · split
        · next hyx =>
            refine List.pairwise_cons.mpr ⟨?_, ih hys⟩
            intro b hb
            rcases mem_sortedInsert hb with rfl | hb
            · exact hyx
            · exact hy b hb
        · exact hp

/-- The result of `sortedDedup` is strictly sorted under `ltStr`. -/
theorem pairwise_sortedDedup (l : List Str) :
    (sortedDedup l).Pairwise (fun a b => ltStr a b = true) := by
  induction l with
  | nil => simp [sortedDedup]
  | cons a l ih => exact pairwise_sortedInsert ih

/-- Members of `sortedDedup` come from the input list. -/
theorem mem_sortedDedup {z : Str} :
    ∀ {l : List Str}, z ∈ sortedDedup l → z ∈ l := by
  intro l
  induction l with
  | nil => intro h; simpa [sortedDedup] using h
  | cons a l ih =>
      intro h
      rcases mem_sortedInsert h with rfl | h
      · exact List.mem_cons_self _ _
      · exact List.mem_cons_of_mem _ (ih h)

/-- Strictly `ltStr`-sorted lists have no duplicates. -/
theorem nodup_of_pairwise_ltStr {l : List Str}
    (h : l.Pairwise (fun a b => ltStr a b = true)) : l.Nodup :=
  h.imp (fun hab heq => by
    rw [heq] at hab
    rw [ltStr_irrefl] at hab
    cases hab)

/-- The head of `dropWhile p` never satisfies `p`. -/
theorem head_dropWhile_false (p : Char → Bool) :
    ∀ (l : Str) (c : Char), (l.dropWhile p).head? = some c → p c = false := by
  intro l
  induction l with
  | nil => intro c h; cases h
  | cons a as ih =>
      intro c h
      rw [List.dropWhile_cons] at h
      split at h
      · exact ih c h
      · next hpa =>
          rw [List.head?_cons] at h
          cases h
          exact Bool.not_eq_true _ ▸ hpa

/-- A nonempty prefix determines the head of the longer list. -/
theorem head?_of_front_part {l₁ l₂ : Str} {c : Char}
    (h : l₁ <+: l₂) (hc : l₁.head? = some c) : l₂.head? = some c := by
  obtain ⟨s, rfl⟩ := h
  cases l₁ with
  | nil => cases hc
  | cons a as => simpa using hc

/-- The first character of a stripped string never satisfies the
strip class. -/
theorem head?_pyStrip (p : Char → Bool) (l : Str) (c : Char)
    (h : (pyStrip p l).head? = some c) : p c = false := by
  unfold pyStrip at h
  rw [List.head?_reverse] at h
  have hsuf : (l.dropWhile p).reverse.dropWhile p <:+ (l.dropWhile p).reverse :=
    List.dropWhile_suffix p
  have hpre : ((l.dropWhile p).reverse.dropWhile p).reverse <+: l.dropWhile p := by
    have := List.reverse_prefix.mpr hsuf
    simpa using this
  rw [← List.head?_reverse] at h
  exact head_dropWhile_false p l c (head?_of_front_part hpre h)

/-- The last character of a stripped string never satisfies the strip
class. -/
theorem getLast?_pyStrip (p : Char → Bool) (l : Str) (c : Char)
    (h : (pyStrip p l).getLast? = some c) : p c = false := by
  unfold pyStrip at h
  rw [List.getLast?_reverse] at h
  exact head_dropWhile_false p (l.dropWhile p).reverse c h

/-- C8. For every input text, `extract_emails` returns a strictly
lexicographically sorted list with no duplicate entries, in which no
entry starts or ends with a character from the cleanup set
`.,;:()[]{}<>"'`. -/
theorem extract_emails_sorted_nodup_stripped (text : Str) :
    (extract_emails text).Pairwise (fun a b => ltStr a b = true) ∧
    (extract_emails text).Nodup ∧
    ∀ e ∈ extract_emails text, ∀ c : Char,
      (e.head? = some c ∨ e.getLast? = some c) → isCleanupChar c = false := by
  refine ⟨pairwise_sortedDedup _, nodup_of_pairwise_ltStr (pairwise_sortedDedup _), ?_⟩
  intro e he c hc
  have he' := mem_sortedDedup he
  simp only [List.mem_map] at he'
  obtain ⟨x, _, rfl⟩ := he'
  rcases hc with hc | hc
  · exact head?_pyStrip _ _ _ hc
  · exact getLast?_pyStrip _ _ _ hc

/-- Witness for `extract_emails_sorted_nodup_stripped` on a concrete
page text. -/
theorem extract_emails_sorted_nodup_stripped_witness :
    (extract_emails "Mail (b@c.org), a@b.com.".toList).Pairwise
      (fun a b => ltStr a b = true) ∧
    (extract_emails "Mail (b@c.org), a@b.com.".toList).Nodup ∧
    ∀ e ∈ extract_emails "Mail (b@c.org), a@b.com.".toList, ∀ c : Char,
      (e.head? = some c ∨ e.getLast? = some c) → isCleanupChar c = false :=
  extract_emails_sorted_nodup_stripped "Mail (b@c.org), a@b.com.".toList

/-- Confidence stored in the aggregation dict under key `e`. -/
def confAt (found : List (Str × FoundEmail)) (e : Str) : Option Nat :=
  (found.find? (fun p => p.1 == e)).map (fun p => p.2.confidence)

/-- How a new observation combines with the stored confidence:
absent keys adopt the new confidence; present keys keep the maximum
(`found_update` replaces only on strict improvement, which computes
the maximum). -/
def mergeConf (o : Option Nat) (c : Nat) : Option Nat :=
  some (match o with | none => c | some a => max a c)

/-- The confidence contribution of one page for email `e`: present
exactly when the page's text yields `e`, and then equal to the
classifier's score on that page. -/
def pageConf (e : Str) (page : Str × Str) : Option Nat :=
  if e ∈ extract_emails page.2 then some (guess_role e page.1 page.2).2 else none

/-- All per-page confidence contributions for email `e`. -/
def confList (e : Str) (pages : List (Str × Str)) : List Nat :=
  pages.filterMap (pageConf e)

instance : RightCommutative mergeConf :=
  ⟨by
    intro o c1 c2
    cases o with
    | none => simp [mergeConf, Nat.max_comm]
    | some a =>
        simp only [mergeConf, Option.some.injEq]
        rw [Nat.max_assoc, Nat.max_comm c1 c2, ← Nat.max_assoc]⟩

/-- `find?` by key over an appended singleton with a fresh key. -/
theorem find?_key_none_append (e : Str) (fe : FoundEmail)
    (fd : List (Str × FoundEmail))
    (hfind : fd.find? (fun p => p.1 == e) = none) :
    (fd ++ [(e, fe)]).find? (fun p => p.1 == e) = some (e, fe) := by
  rw [List.find?_append, hfind]
  simp [List.find?_cons]

/-- In-place replacement of key `e` is what `find?` at key `e` sees
afterwards, provided the key was present. -/
theorem find?_key_map_replace_self (e : Str) (fe : FoundEmail) :
    ∀ (fd : List (Str × FoundEmail)) (old : Str × FoundEmail),
      fd.find? (fun p => p.1 == e) = some old →
      (fd.map (fun p => if p.1 == e then (e, fe) else p)).find? (fun p => p.1 == e)
        = some (e, fe) := by
  intro fd
  induction fd with
  | nil => intro old h; cases h
  | cons q fd ih =>
      intro old h
      rw [List.find?_cons] at h
      simp only [List.map_cons, List.find?_cons]
      by_cases hq : (q.1 == e) = true
      · rw [if_pos hq]
        simp [List.find?_cons]
      · rw [if_neg (by simpa using hq)]
        simp only [hq] at h ⊢
        exact ih old h

/-- In-place replacement of key `e'` is invisible to `find?` at any
other key `e`. -/
theorem find?_key_map_replace_ne (e e' : Str) (fe : FoundEmail) (hne : e ≠ e') :
    ∀ fd : List (Str × FoundEmail),
      (fd.map (fun p => if p.1 == e' then (e', fe) else p)).find? (fun p => p.1 == e)
        = fd.find? (fun p => p.1 == e) := by
  intro fd
  induction fd with
  | nil => rfl
  | cons q fd ih =>
      simp only [List.map_cons, List.find?_cons]
      by_cases hq : (q.1 == e') = true
      · rw [if_pos hq]
        have h1 : (e' == e) = false := by simp [Ne.symm hne]
        have h2 : (q.1 == e) = false := by
          have hq' : q.1 = e' := by simpa using hq
          simp [hq', Ne.symm hne]
        simp only [h1, h2]
        exact ih
      · rw [if_neg (by simpa using hq)]
        by_cases hqe : (q.1 == e) = true
        · simp only [hqe]
        · simp only [hqe]
          exact ih

/-- Updating a different key leaves `confAt` unchanged. -/
theorem confAt_found_update_ne {e e' : Str} (hne : e ≠ e')
    (fd : List (Str × FoundEmail)) (fe : FoundEmail) :
    confAt (found_update fd e' fe) e = confAt fd e := by
  unfold found_update
  rcases hfind : fd.find? (fun p => p.1 == e') with _ | old
  · simp only [hfind]
    unfold confAt
    rw [List.find?_append]
    have h0 : List.find? (fun p => p.1 == e) [(e', fe)] = none := by
      simp [List.find?_cons, Ne.symm hne]
    rw [h0, Option.or_none]
  · simp only [hfind]
    by_cases hlt : old.2.confidence < fe.confidence
    · rw [if_pos hlt]
      unfold confAt
      rw [find?_key_map_replace_ne e e' fe hne fd]
    · rw [if_neg hlt]

/-- Updating key `e` combines the stored confidence with the new one
through `mergeConf`. -/
theorem confAt_found_update_eq (fd : List (Str × FoundEmail)) (e : Str)
    (fe : FoundEmail) :
    confAt (found_update fd e fe) e = mergeConf (confAt fd e) fe.confidence := by
  unfold found_update
  rcases hfind : fd.find? (fun p => p.1 == e) with _ | old
  · simp only [hfind]
    unfold confAt
    rw [find?_key_none_append e fe fd hfind, hfind]
    simp [mergeConf]
  · simp only [hfind]
    by_cases hlt : old.2.confidence < fe.confidence
    · rw [if_pos hlt]
      unfold confAt
      rw [find?_key_map_replace_self e fe fd old hfind, hfind]
      simp [mergeConf, Nat.max_eq_right (Nat.le_of_lt hlt)]
    · rw [if_neg hlt]
      unfold confAt
      rw [hfind]
      simp [mergeConf, Nat.max_eq_left (Nat.le_of_not_lt hlt)]

/-- Stable insertion produces a permutation of consing. -/
theorem insertIn_perm (le : FoundEmail → FoundEmail → Bool) (x : FoundEmail) :
    ∀ l : List FoundEmail, (insertIn le x l).Perm (x :: l) := by
  intro l
  induction l with
  | nil => exact List.Perm.refl _
  | cons y ys ih =>
      simp only [insertIn]
      split
      · exact List.Perm.refl _
      · exact (ih.cons y).trans (List.Perm.swap x y ys)

/-- Insertion sort permutes its input. -/
theorem insertionSort_perm (le : FoundEmail → FoundEmail → Bool) :
    ∀ l : List FoundEmail, (insertionSort le l).Perm l := by
  intro l
  induction l with
  | nil => exact List.Perm.refl _
  | cons x xs ih => exact (insertIn_perm le x _).trans (ih.cons x)

/-- Effect of one page's inner email loop on the stored confidence of
a fixed email `e`: if `e` is among the page's extracted emails (which
are distinct), its stored confidence merges with the classifier score,
and otherwise nothing changes. -/
theorem confAt_foldl_inner (url txt : Str) (e : Str) :
    ∀ (es : List Str), es.Nodup → ∀ fd : List (Str × FoundEmail),
      confAt (es.foldl (fun fd e' =>
          let rc := guess_role e' url txt
          found_update fd e' ⟨e', url, rc.1, rc.2⟩) fd) e
        = if e ∈ es then mergeConf (confAt fd e) (guess_role e url txt).2
          else confAt fd e := by
  intro es
  induction es with
  | nil => intro _ fd; simp
  | cons e' es ih =>
      intro hnd fd
      obtain ⟨hnotin, hnd'⟩ := List.nodup_cons.mp hnd
      rw [List.foldl_cons]
      by_cases he : e = e'
      · subst he
        rw [ih hnd' _, if_neg hnotin, if_pos (List.mem_cons_self _ _)]
        exact confAt_found_update_eq fd e _
      · rw [ih hnd' _]
        by_cases hes : e ∈ es
        · rw [if_pos hes, if_pos (List.mem_cons_of_mem _ hes),
            confAt_found_update_ne he]
        · rw [if_neg hes, if_neg (by simp [List.mem_cons, he, hes]),
            confAt_found_update_ne he]

/-- The emails extracted from a page are distinct. -/
theorem extract_emails_nodup (text : Str) : (extract_emails text).Nodup :=
  nodup_of_pairwise_ltStr (pairwise_sortedDedup _)

/-- Effect of one page on the stored confidence of `e`, phrased
through `pageConf`. -/
theorem confAt_process_page (fd : List (Str × FoundEmail)) (p : Str × Str) (e : Str) :
    confAt (process_page fd p) e =
      match pageConf e p with
      | some c => mergeConf (confAt fd e) c
      | none => confAt fd e := by
  unfold process_page pageConf
  rw [confAt_foldl_inner p.1 p.2 e (extract_emails p.2) (extract_emails_nodup p.2) fd]
  by_cases he : e ∈ extract_emails p.2
  · rw [if_pos he, if_pos he]
  · rw [if_neg he, if_neg he]

/-- The aggregation fold computes, per email, the `mergeConf` fold of
that email's per-page confidence contributions. -/
theorem confAt_foldl_pages (e : Str) :
    ∀ (pages : List (Str × Str)) (fd : List (Str × FoundEmail)),
      confAt (pages.foldl process_page fd) e
        = (confList e pages).foldl mergeConf (confAt fd e) := by
  intro pages
  induction pages with
  | nil => intro fd; rfl
  | cons p ps ih =>
      intro fd
      rw [List.foldl_cons, ih]
      unfold confList
      rw [List.filterMap_cons]
      rcases hpc : pageConf e p with _ | c
      · have := confAt_process_page fd p e
        rw [hpc] at this
        rw [this]
      · have := confAt_process_page fd p e
        rw [hpc] at this
        rw [List.foldl_cons, this]

/-- Per-email stored confidence is invariant under page-order
permutation. -/
theorem confAt_perm {pages pages' : List (Str × Str)}
    (hp : pages.Perm pages') (e : Str) :
    confAt (pages.foldl process_page []) e
      = confAt (pages'.foldl process_page []) e := by
  rw [confAt_foldl_pages, confAt_foldl_pages]
  exact List.Perm.foldl_eq (List.Perm.filterMap (pageConf e) hp) _

/-- Well-formedness of the aggregation dict: keys are distinct and
each record's email equals its key. -/
def dictInv (fd : List (Str × FoundEmail)) : Prop :=
  (fd.map (fun p => p.1)).Nodup ∧ ∀ p ∈ fd, p.2.email = p.1

/-- `found_update` preserves dict well-formedness when the new record
carries its key as email. -/
theorem found_update_dictInv (fd : List (Str × FoundEmail)) (e : Str)
    (fe : FoundEmail) (hfe : fe.email = e) (h : dictInv fd) :
    dictInv (found_update fd e fe) := by
  obtain ⟨hk, hm⟩ := h
  unfold found_update
  rcases hfind : fd.find? (fun p => p.1 == e) with _ | old
  · simp only [hfind]
    constructor
    · rw [List.map_append, List.nodup_append]
      refine ⟨hk, by simp, ?_⟩
      intro a ha hb
      simp only [List.map_cons, List.map_nil, List.mem_singleton] at hb
      subst hb
      rw [List.mem_map] at ha
      obtain ⟨p, hp, hpe⟩ := ha
      exact absurd (by simp [hpe]) (List.find?_eq_none.mp hfind p hp)
    · intro p hp
      rcases List.mem_append.mp hp with hp | hp
      · exact hm p hp
      · rw [List.mem_singleton] at hp
        rw [hp]
        exact hfe
  · simp only [hfind]
    split
    · constructor
      · have hkeys : (fd.map (fun p => if p.1 == e then (e, fe) else p)).map
            (fun p => p.1) = fd.map (fun p => p.1) := by
          rw [List.map_map]
          apply List.map_congr_left
          intro p _
          by_cases hpe : (p.1 == e) = true
          · simp only [Function.comp_apply, if_pos hpe]
            exact (by simpa using hpe : p.1 = e).symm
          · simp only [Function.comp_apply]
            rw [if_neg (by simpa using hpe)]
        rw [hkeys]
        exact hk
      · intro p hp
        rw [List.mem_map] at hp
        obtain ⟨q, hq, rfl⟩ := hp
        by_cases hqe : (q.1 == e) = true
        · rw [if_pos hqe]
          exact hfe
        · rw [if_neg (by simpa using hqe)]
          exact hm q hq
    · exact ⟨hk, hm⟩

/-- The aggregation fold keeps the dict well-formed. -/
theorem dict_invariant (pages : List (Str × Str)) :
    dictInv (pages.foldl process_page []) := by
  have hinner : ∀ (p : Str × Str) (es : List Str) (fd : List (Str × FoundEmail)),
      dictInv fd →
      dictInv (es.foldl (fun fd e' =>
        let rc := guess_role e' p.1 p.2
        found_update fd e' ⟨e', p.1, rc.1, rc.2⟩) fd) := by
    intro p es
    induction es with
    | nil => intro fd h; exact h
    | cons e' es ih =>
        intro fd h
        rw [List.foldl_cons]
        exact ih _ (found_update_dictInv fd e' _ rfl h)
  have hmain : ∀ (ps : List (Str × Str)) (fd : List (Str × FoundEmail)),
      dictInv fd → dictInv (ps.foldl process_page fd) := by
    intro ps
    induction ps with
    | nil => intro fd h; exact h
    | cons p ps ih =>
        intro fd h
        rw [List.foldl_cons]
        exact ih _ (hinner p (extract_emails p.2) fd h)
  exact hmain pages [] ⟨by simp, by simp⟩

/-- The (email, confidence) projection of the ranked output's source
values. -/
def pairsOf (fd : List (Str × FoundEmail)) : List (Str × Nat) :=
  (fd.map (fun p => p.2)).map (fun f => (f.email, f.confidence))

/-- `pairsOf` as a single map. -/
theorem pairsOf_eq (fd : List (Str × FoundEmail)) :
    pairsOf fd = fd.map (fun p => (p.2.email, p.2.confidence)) := by
  simp [pairsOf, List.map_map, Function.comp]

/-- With distinct keys, `find?` at a present key returns exactly the
entry carrying it. -/
theorem find?_key_of_mem (e : Str) :
    ∀ (fd : List (Str × FoundEmail)), (fd.map (fun p => p.1)).Nodup →
      ∀ p ∈ fd, p.1 = e → fd.find? (fun q => q.1 == e) = some p := by
  intro fd
  induction fd with
  | nil => intro _ p hp; cases hp
  | cons q fd ih =>
      intro hk p hp hpe
      simp only [List.map_cons, List.nodup_cons] at hk
      obtain ⟨hqnotin, hk'⟩ := hk
      rw [List.find?_cons]
      rcases List.mem_cons.mp hp with rfl | hp'
      · simp [hpe]
      · have hqe : (q.1 == e) = false := by
          have : q.1 ≠ e := fun hcon => by
            rw [← hpe] at hcon
            exact hqnotin (hcon ▸ List.mem_map_of_mem (fun p => p.1) hp')
          simp [this]
        simp only [hqe]
        exact ih hk' p hp' hpe

/-- Membership in the (email, confidence) projection is exactly a
`confAt` fact, for well-formed dicts. -/
theorem pairsOf_mem_iff (fd : List (Str × FoundEmail)) (h : dictInv fd)
    (e : Str) (c : Nat) :
    (e, c) ∈ pairsOf fd ↔ confAt fd e = some c := by
  obtain ⟨hk, hm⟩ := h
  rw [pairsOf_eq]
  constructor
  · intro hmem
    rw [List.mem_map] at hmem
    obtain ⟨p, hp, heq⟩ := hmem
    have h1 : p.2.email = e := congrArg Prod.fst heq
    have h2 : p.2.confidence = c := congrArg Prod.snd heq
    have hkey : p.1 = e := by rw [← hm p hp, h1]
    rw [confAt, find?_key_of_mem e fd hk p hp hkey]
    simp [h2]
  · intro hconf
    unfold confAt at hconf
    rcases hfind : fd.find? (fun q => q.1 == e) with _ | p
    · rw [hfind] at hconf; cases hconf
    · rw [hfind] at hconf
      have hconf' : p.2.confidence = c := by simpa using hconf
      have hp := List.mem_of_find?_eq_some hfind
      have hpe : p.1 = e := by simpa using List.find?_some hfind
      refine List.mem_map.mpr ⟨p, hp, ?_⟩
      rw [hm p hp, hpe, hconf']

/-- Well-formed dicts have duplicate-free projections. -/
theorem pairsOf_nodup (fd : List (Str × FoundEmail)) (h : dictInv fd) :
    (pairsOf fd).Nodup := by
  obtain ⟨hk, hm⟩ := h
  rw [pairsOf_eq]
  have hfst : ((fd.map (fun p => (p.2.email, p.2.confidence))).map Prod.fst).Nodup := by
    rw [List.map_map]
    have hsame : fd.map (Prod.fst ∘ fun p => (p.2.email, p.2.confidence))
        = fd.map (fun p => p.1) := by
      apply List.map_congr_left
      intro p hp
      simp [hm p hp]
    rw [hsame]
    exact hk
  exact List.Nodup.of_map Prod.fst hfst

/-- C7 amended. For every list of (url, text) pages and every
permutation of it, `find_contacts_from_pages` produces the same
best-candidate-per-email multiset of (email, confidence) pairs: the
same emails with the same confidences.  (`found_on` — and, on
confidence ties, also `role_guess` — may differ; see the
counterexample.) -/
theorem find_contacts_email_confidence_perm_invariant
    (pages pages' : List (Str × Str)) (hp : pages.Perm pages') :
    ((find_contacts_from_pages pages).map (fun f => (f.email, f.confidence))).Perm
      ((find_contacts_from_pages pages').map (fun f => (f.email, f.confidence))) := by
  have hs1 := (insertionSort_perm rankLe
    ((pages.foldl process_page []).map (fun p => p.2))).map
      (fun f => (f.email, f.confidence))
  have hs2 := (insertionSort_perm rankLe
    ((pages'.foldl process_page []).map (fun p => p.2))).map
      (fun f => (f.email, f.confidence))
  refine hs1.trans (List.Perm.trans ?_ hs2.symm)
  show (pairsOf (pages.foldl process_page [])).Perm
    (pairsOf (pages'.foldl process_page []))
  have h1 := dict_invariant pages
  have h2 := dict_invariant pages'
  refine (List.perm_ext_iff_of_nodup (pairsOf_nodup _ h1) (pairsOf_nodup _ h2)).mpr ?_
  rintro ⟨e, c⟩
  rw [pairsOf_mem_iff _ h1, pairsOf_mem_iff _ h2, confAt_perm hp]

/-- First page of the C7 counterexample: a CSR-path URL. -/
def pageA : Str × Str := ("https://a.com/csr".toList, "x@y.com".toList)

/-- Second page of the C7 counterexample: a marketing-path URL with
the same email and the same resulting confidence. -/
def pageB : Str × Str := ("https://a.com/marketing".toList, "x@y.com".toList)

/-- C7 counterexample. Reordering two pages that yield the same email
with tied confidence changes the reported `role_guess` (csr vs
marketing), not only `found_on`: the claim that roles are always
identical under permutation fails. -/
theorem find_contacts_perm_role_differs :
    [pageA, pageB].Perm [pageB, pageA] ∧
    (find_contacts_from_pages [pageA, pageB]).map (fun f => f.role_guess)
      = ["csr".toList] ∧
    (find_contacts_from_pages [pageB, pageA]).map (fun f => f.role_guess)
      = ["marketing".toList] ∧
    (find_contacts_from_pages [pageA, pageB]).map (fun f => (f.email, f.confidence))
      = (find_contacts_from_pages [pageB, pageA]).map
          (fun f => (f.email, f.confidence)) ∧
    ¬ ("csr".toList = "marketing".toList) := by
  decide

/-- Witness for `find_contacts_email_confidence_perm_invariant` on the
two concrete pages, swapped. -/
theorem find_contacts_email_confidence_perm_invariant_witness :
    [pageA, pageB].Perm [pageB, pageA] ∧
    ((find_contacts_from_pages [pageA, pageB]).map
        (fun f => (f.email, f.confidence))).Perm
      ((find_contacts_from_pages [pageB, pageA]).map
        (fun f => (f.email, f.confidence))) :=
  ⟨by decide,
   find_contacts_email_confidence_perm_invariant [pageA, pageB] [pageB, pageA]
     (by decide)⟩
